import Mathlib

/-!
Verification development for the bili-shadowreplay recorder engine.

Shallow embedding of the core logic of src/src-tauri/src/recorder.rs and
src/src-tauri/src/db.rs. Pure data transformations are translated to Lean
functions; the stateful recorder is modelled as explicit state passing over
a RecorderState record. Machine integers (u64) become Nat; where u64
wrap-around could matter (sequence-gap subtraction) the subtraction is
modelled explicitly modulo 2 ^ 64. Floating point counters (f64) are
modelled as rationals, which is exact for the additions of playlist
durations and whole cache units performed by the source. Fallible
operations return Except; unwrap-style aborts in the source are modelled
with an explicit panic result type.
-/

namespace BiliShadowReplay

/-- Embeds struct TsEntry (recorder.rs lines 25-31). The source field
named with a leading underscore holding the declared duration is called
length here; sizes and sequence numbers are u64 in the source, Nat here. -/
structure TsEntry where
  url : String
  sequence : Nat
  length : ℚ
  size : Nat
deriving Repr, DecidableEq, Inhabited

/-- Embeds enum StreamType (recorder.rs lines 60-64). -/
inductive StreamType where
  | TS
  | FMP4
deriving Repr, DecidableEq

/-- Embeds enum RecorderError (recorder.rs lines 66-76); payloads of the
wrapped variants are dropped as the claims never inspect them. -/
inductive RecorderError where
  | NotStarted
  | EmptyCache
  | M3u8ParseFailed
  | InvalidM3u8Url (url : String)
  | EmptyHeader
  | InvalidTimestamp
  | InvalidPlaylist
  | InvalidDBOP
  | ClientError
deriving Repr, DecidableEq

/-- Embeds the mutable per-room fields of struct BiliRecorder
(recorder.rs lines 39-58): each Arc-guarded cell becomes one record
field. Fields that the claims never touch (app handle, clients, db
handle, account, config, room and user info, quit flag) are omitted. -/
structure RecorderState where
  m3u8_url : String
  live_status : Bool
  last_sequence : Nat
  ts_length : ℚ
  timestamp : Nat
  ts_entries : List TsEntry
  header : Option TsEntry
  stream_type : StreamType
  cache_size : Nat
deriving Repr, DecidableEq

/-- Embeds BiliRecorder::reset (recorder.rs lines 141-147): clears
ts_length, last_sequence, ts_entries, header and timestamp. The source
does not touch cache_size or live_status here. -/
def reset (st : RecorderState) : RecorderState :=
  { st with
    ts_length := 0
    last_sequence := 0
    ts_entries := []
    header := none
    timestamp := 0 }

/-- Embeds BiliRecorder::check_status (recorder.rs lines 149-201).
The room-info fetch result is passed in as room_poll (none models the
Err branch), and the play-url resolution result as play_url. The
notification side effects are external I/O and are not modelled. The
returned Bool is the value the source returns. -/
def check_status (st : RecorderState) (room_poll : Option Bool)
    (play_url : Option (String × StreamType)) : RecorderState × Bool :=
  match room_poll with
  | some live =>
    let st1 :=
      if live then
        match play_url with
        | some (index_url, stream_type) =>
          { st with m3u8_url := index_url, stream_type := stream_type }
        | none => st
      else
        reset st
    ({ st1 with live_status := live }, live)
  | none =>
    ({ st with live_status := true }, true)

/-- One media segment of a fetched media playlist: the uri and the
declared duration of a m3u8-rs MediaSegment as consumed by
BiliRecorder::update_entries. -/
structure MediaSeg where
  uri : String
  duration : ℚ
deriving Repr, DecidableEq

/-- Embeds the segment loop of BiliRecorder::update_entries
(recorder.rs lines 428-473). resolve models BiliRecorder::ts_url
(Err aborts the whole call through the question-mark operator), dl
models the spawned download task for one resolved url (none models a
failed download, which only skips the cache-size increment). The loop
state threads exactly the fields the source mutates: entries are pushed
in playlist order, last_sequence follows each appended sequence,
ts_length accumulates the declared duration, cache_size accumulates the
downloaded byte size. An entry resolving to an empty url is skipped
without advancing the running sequence counter, as in the source. -/
def update_entries_segments (resolve : String → Except RecorderError String)
    (dl : String → Option Nat) :
    RecorderState → Nat → List MediaSeg → Except RecorderError RecorderState
  | st, _, [] => .ok st
  | st, sequence, ts :: rest =>
    if sequence ≤ st.last_sequence then
      update_entries_segments resolve dl st (sequence + 1) rest
    else
      match resolve ts.uri with
      | .error e => .error e
      | .ok ts_url =>
        if ts_url = "" then
          update_entries_segments resolve dl st sequence rest
        else
          let entry : TsEntry :=
            { url := ts_url, sequence := sequence, length := ts.duration, size := 0 }
          update_entries_segments resolve dl
            { st with
              ts_entries := st.ts_entries ++ [entry]
              last_sequence := sequence
              ts_length := st.ts_length + ts.duration
              cache_size := st.cache_size + (dl ts_url).getD 0 }
            (sequence + 1) rest

/-- A run of successive ingestion cycles: each cycle supplies the
media_sequence of the fetched playlist and its segment list, processed
by the update_entries segment loop. -/
def run_cycles (resolve : String → Except RecorderError String)
    (dl : String → Option Nat) :
    RecorderState → List (Nat × List MediaSeg) → Except RecorderError RecorderState
  | st, [] => .ok st
  | st, (media_sequence, segments) :: rest =>
    match update_entries_segments resolve dl st media_sequence segments with
    | .error e => .error e
    | .ok st1 => run_cycles resolve dl st1 rest

/-- Embeds BiliRecorder::restore (recorder.rs lines 495-506): an empty
scan result leaves the state untouched; otherwise the scanned entries
are appended to the cache, ts_length is set to the entry count (one
cache unit per restored segment), cache_size is set to the sum of the
scanned file sizes, and last_sequence is set to the sequence of the
last scanned entry. -/
def restore (st : RecorderState) (entries : List TsEntry) : RecorderState :=
  match entries.getLast? with
  | none => st
  | some last_entry =>
    { st with
      ts_entries := st.ts_entries ++ entries
      ts_length := (entries.length : ℚ)
      cache_size := (entries.map TsEntry.size).sum
      last_sequence := last_entry.sequence }

/-- Result type for modelled code paths that can abort the process: a
Rust unwrap or expect failure is a panicked value, normal completion is
ret. -/
inductive PRes (α : Type) where
  | panicked (msg : String)
  | ret (val : α)
deriving Repr, DecidableEq

/-- One directory entry as observed by BiliRecorder::get_fs_entries.
Each field mirrors one fallible call of the source loop: file_type is
none when the file-type query errors (the entry is then skipped), name
is none when the OS name is not valid UTF-8 (the to_str unwrap then
panics), size is none when the metadata query errors (the metadata
unwrap then panics). -/
structure FsFile where
  file_type : Option Bool
  name : Option String
  size : Option Nat
deriving Repr, DecidableEq

/-- Text of a name before the first dot, embedding the Rust expression
splitting a file name on a dot and taking the first piece. Implemented
by structural recursion over the character list so it reduces in the
kernel. -/
def stemAux : List Char → List Char → List Char
  | [], acc => acc.reverse
  | c :: rest, acc => if c = '.' then acc.reverse else stemAux rest (c :: acc)

/-- Stem of a file name: the text before the first dot, or the whole
name when it contains no dot. -/
def stemOf (s : String) : String := ⟨stemAux s.data []⟩

/-- Text of a path after the last slash, embedding the Rust expression
splitting a url on slashes and taking the last piece. -/
def lastCompAux : List Char → List Char → List Char
  | [], acc => acc.reverse
  | c :: rest, acc => if c = '/' then lastCompAux rest [] else lastCompAux rest (c :: acc)

/-- Last path component of a url or file name. -/
def lastComponent (s : String) : String := ⟨lastCompAux s.data []⟩

/-- Whether a file name begins with the character h, embedding the Rust
starts-with check that get_fs_entries uses to exclude the
initialization-segment file. -/
def startsWithH (s : String) : Bool :=
  match s.data with
  | [] => false
  | c :: _ => c = 'h'

/-- Decimal digits to a natural number; none when a non-digit occurs. -/
def parseNatAux : List Char → Nat → Option Nat
  | [], acc => some acc
  | c :: rest, acc =>
    if c.isDigit then parseNatAux rest (acc * 10 + (c.toNat - 48)) else none

/-- Embeds a Rust u64 parse of a string: an optional leading plus sign
is accepted, then one or more decimal digits are required; fails on the
empty string, on any other non-digit character, and on values outside
the u64 range. -/
def parseU64 (s : String) : Option Nat :=
  let digits : List Char :=
    match s.data with
    | '+' :: rest => rest
    | l => l
  match digits with
  | [] => none
  | _ =>
    match parseNatAux digits 0 with
    | none => none
    | some n => if n < 2 ^ 64 then some n else none

/-- Scanning pass of BiliRecorder::get_fs_entries (recorder.rs lines
709-732), in source order: a file-type error skips the entry, a
non-file is skipped, the name is unwrapped (panicking on a non-UTF-8
name) before the leading-h check skips the header file, the stem is
parsed as a u64 with unwrap (panicking on a parse failure), and the
metadata length is unwrapped (panicking on a metadata error); a
surviving file becomes a TsEntry with the file name as url, unit length
and the metadata size. -/
def scan_files : List FsFile → PRes (List TsEntry)
  | [] => .ret []
  | f :: rest =>
    match f.file_type with
    | none => scan_files rest
    | some is_file =>
      if !is_file then scan_files rest
      else
        match f.name with
        | none => .panicked "file name is not valid UTF-8"
        | some file_name =>
          if startsWithH file_name then scan_files rest
          else
            match parseU64 (stemOf file_name) with
            | none => .panicked file_name
            | some sequence =>
              match f.size with
              | none => .panicked "metadata query failed"
              | some size =>
                match scan_files rest with
                | .panicked m => .panicked m
                | .ret entries =>
                  .ret ((⟨file_name, sequence, 1, size⟩ : TsEntry) :: entries)

/-- Stable insertion of one entry into a list already sorted by
sequence. -/
def insertEntry (e : TsEntry) : List TsEntry → List TsEntry
  | [] => [e]
  | x :: xs => if x.sequence ≤ e.sequence then x :: insertEntry e xs else e :: x :: xs

/-- Stable sort by ascending sequence, embedding the sort_by call of
get_fs_entries (recorder.rs line 733). -/
def sortEntries : List TsEntry → List TsEntry
  | [] => []
  | x :: xs => insertEntry x (sortEntries xs)

/-- Embeds BiliRecorder::get_fs_entries (recorder.rs lines 702-735):
scan the directory listing, then sort the resulting entries by
ascending sequence. -/
def get_fs_entries (files : List FsFile) : PRes (List TsEntry) :=
  match scan_files files with
  | .panicked m => .panicked m
  | .ret entries => .ret (sortEntries entries)

/-- One line of a synthesized m3u8 document. A uri-bearing line keeps
the room id, session timestamp and file name it is formatted from, so
the embedding does not depend on decimal rendering of integers. -/
inductive M3u8Line where
  | extm3u
  | version
  | target_duration
  | playlist_type (t : String)
  | map_uri (room_id timestamp : Nat) (name : String)
  | discontinuity
  | extinf
  | media_uri (room_id timestamp : Nat) (name : String)
  | endlist
deriving Repr, DecidableEq

/-- Wrapping u64 subtraction: both generator loops compute the gap
between the current and previous sequence with unsigned subtraction.
Both arguments are assumed below 2 ^ 64. -/
def u64_sub (a b : Nat) : Nat := (2 ^ 64 + a - b) % 2 ^ 64

/-- Shared body loop of the two playlist generators (recorder.rs lines
687-696 and 760-771): before each entry, a discontinuity line is
emitted when the wrapping difference between the entry sequence and the
previous one exceeds 1; every entry then contributes an extinf line and
a uri line built by fmt. -/
def body_lines (fmt : TsEntry → M3u8Line) : List TsEntry → Nat → List M3u8Line
  | [], _ => []
  | e :: rest, last_sequence =>
    (if 1 < u64_sub e.sequence last_sequence then [M3u8Line.discontinuity] else []) ++
    [M3u8Line.extinf, fmt e] ++ body_lines fmt rest e.sequence

/-- Uri formatting of the archive generator: the entry url (an on-disk
file name) scoped by room and session. -/
def archive_fmt (room_id timestamp : Nat) (e : TsEntry) : M3u8Line :=
  M3u8Line.media_uri room_id timestamp e.url

/-- Uri formatting of the live generator: the last component of the
entry url scoped by room and session. -/
def live_fmt (room_id timestamp : Nat) (e : TsEntry) : M3u8Line :=
  M3u8Line.media_uri room_id timestamp (lastComponent e.url)

/-- Embeds BiliRecorder::generate_archive_m3u8 (recorder.rs lines
672-699), taking the directory-scan result as entries. The header
reference is synthesized from the fixed naming convention; an empty
scan returns just the head lines, without an end marker. -/
def generate_archive_m3u8 (room_id timestamp : Nat) (entries : List TsEntry) :
    List M3u8Line :=
  let head : List M3u8Line :=
    [M3u8Line.extm3u, M3u8Line.version, M3u8Line.target_duration,
     M3u8Line.playlist_type "VOD",
     M3u8Line.map_uri room_id timestamp ("h" ++ toString timestamp ++ ".m4s")]
  match entries with
  | [] => head
  | e :: _ =>
    head ++ body_lines (archive_fmt room_id timestamp) entries e.sequence ++
      [M3u8Line.endlist]

/-- Embeds BiliRecorder::generate_live_m3u8 (recorder.rs lines
738-777): playlist type EVENT while live and VOD otherwise, an optional
map line from the cached header, the body from the in-memory cache, and
an end marker only when the stream is closed and the cache is
non-empty (an empty cache returns before the end marker). -/
def generate_live_m3u8 (room_id : Nat) (st : RecorderState) : List M3u8Line :=
  let head0 : List M3u8Line :=
    [M3u8Line.extm3u, M3u8Line.version, M3u8Line.target_duration,
     M3u8Line.playlist_type (if st.live_status then "EVENT" else "VOD")]
  let head := head0 ++
    (match st.header with
     | some h => [M3u8Line.map_uri room_id st.timestamp (lastComponent h.url)]
     | none => [])
  match st.ts_entries with
  | [] => head
  | e :: _ =>
    head ++ body_lines (live_fmt room_id st.timestamp) st.ts_entries e.sequence ++
      (if st.live_status then [] else [M3u8Line.endlist])

/-- Embeds BiliRecorder::generate_m3u8 (recorder.rs lines 664-670):
dispatch on whether the requested timestamp is the live session; the
archive branch reads the on-disk entries, passed here as fs_entries. -/
def generate_m3u8 (room_id : Nat) (st : RecorderState) (fs_entries : List TsEntry)
    (timestamp : Nat) : List M3u8Line :=
  if st.timestamp = timestamp then generate_live_m3u8 room_id st
  else generate_archive_m3u8 room_id timestamp fs_entries

/-- Scan loop of BiliRecorder::clip_live_range (recorder.rs lines
607-618): skip while the accumulated offset is below the start, then
collect; after collecting an entry, stop when the offset has reached
the end, otherwise advance the offset by one cache unit. -/
def clip_live_scan : List TsEntry → ℚ → ℚ → ℚ → List TsEntry
  | [], _, _, _ => []
  | e :: rest, offset, start, stop =>
    if offset < start then clip_live_scan rest (offset + 1) start stop
    else e :: (if offset ≥ stop then [] else clip_live_scan rest (offset + 1) start stop)

/-- Media-segment selection of BiliRecorder::clip_live_range
(recorder.rs lines 589-618): the bounds are normalized by swapping when
start exceeds end, then the cache is scanned. Header prefixing and the
transcoder invocation are elided; this is the set of media files handed
to the concat directive. -/
def clip_live_media (entries : List TsEntry) (x y : ℚ) : List TsEntry :=
  let start := if x > y then y else x
  let stop := if x > y then x else y
  clip_live_scan entries 0 start stop

/-- Scan loop of BiliRecorder::clip_archive_range (recorder.rs lines
547-560): skip while the accumulated offset is below x, then collect;
after collecting an entry, stop when the offset strictly exceeds y,
otherwise advance the offset. No bound normalization is performed. -/
def clip_archive_scan : List TsEntry → ℚ → ℚ → ℚ → List TsEntry
  | [], _, _, _ => []
  | e :: rest, offset, x, y =>
    if offset < x then clip_archive_scan rest (offset + 1) x y
    else e :: (if offset > y then [] else clip_archive_scan rest (offset + 1) x y)

/-- Media-segment selection of BiliRecorder::clip_archive_range
(recorder.rs lines 529-561) over the directory-scan result. -/
def clip_archive_media (entries : List TsEntry) (x y : ℚ) : List TsEntry :=
  clip_archive_scan entries 0 x y

/-- Embeds enum DatabaseError (db.rs lines 29-35); payloads dropped. -/
inductive DatabaseError where
  | InsertError
  | NotFoundError
  | InvalidCookiesError
  | DBError
  | SQLError
deriving Repr, DecidableEq

/-- Embeds struct RecordRow (db.rs lines 248-256). -/
structure RecordRow where
  live_id : Nat
  room_id : Nat
  title : String
  length : Int
  size : Int
  created_at : String
deriving Repr, DecidableEq

/-- Embeds Database::get_record (db.rs lines 270-279): fetch_one of the
first row matching both live_id and room_id; an empty result surfaces
as a wrapped sqlx row-not-found error. The records table is modelled as
a list of rows with live_id as primary key. -/
def get_record (db : List RecordRow) (room_id live_id : Nat) :
    Except DatabaseError RecordRow :=
  match db.find? (fun r => r.live_id == live_id && r.room_id == room_id) with
  | some r => .ok r
  | none => .error DatabaseError.DBError

/-- Embeds Database::add_record (db.rs lines 281-304): an insert that
hits the live_id primary key raises a unique-constraint error, in which
case the existing record is looked up and returned; otherwise the fresh
row is inserted and returned. The created_at clock value is passed in
as now. -/
def add_record (db : List RecordRow) (live_id room_id : Nat) (title now : String) :
    List RecordRow × Except DatabaseError RecordRow :=
  let record : RecordRow :=
    { live_id := live_id, room_id := room_id, title := title,
      length := 0, size := 0, created_at := now }
  if db.any (fun r => r.live_id == live_id) then
    (db, get_record db room_id live_id)
  else
    (db ++ [record], .ok record)

/-! ### Cache invariant and the ingestion-loop specification -/

/-- Invariant tying the in-memory cache to the last-seen sequence:
cached sequence numbers are strictly increasing and all of them are at
most last_sequence. A freshly constructed or reset recorder satisfies
it trivially. -/
def CacheInv (st : RecorderState) : Prop :=
  List.Chain' (fun a b => a.sequence < b.sequence) st.ts_entries ∧
  ∀ e ∈ st.ts_entries, e.sequence ≤ st.last_sequence

/-- Core specification of one segment loop: on success the invariant is
preserved, last_sequence never decreases, the cache grows by a suffix
of entries whose sequences all exceed the previous last_sequence, and
the duration counter grows by the sum of the declared durations of
exactly that suffix. -/
theorem segments_spec (resolve : String → Except RecorderError String)
    (dl : String → Option Nat) :
    ∀ (segs : List MediaSeg) (st : RecorderState) (sequence : Nat)
      (st' : RecorderState),
      update_entries_segments resolve dl st sequence segs = Except.ok st' →
      CacheInv st →
      CacheInv st' ∧ st.last_sequence ≤ st'.last_sequence ∧
        ∃ tail, st'.ts_entries = st.ts_entries ++ tail ∧
          (∀ e ∈ tail, st.last_sequence < e.sequence) ∧
          st'.ts_length = st.ts_length + (tail.map TsEntry.length).sum := by
  intro segs
  induction segs with
  | nil =>
    intro st sequence st' h hinv
    simp only [update_entries_segments, Except.ok.injEq] at h
    subst h
    exact ⟨hinv, le_refl _, [], by simp, by simp, by simp⟩
  | cons ts rest ih =>
    intro st sequence st' h hinv
    simp only [update_entries_segments] at h
    by_cases hle : sequence ≤ st.last_sequence
    · rw [if_pos hle] at h
      exact ih st (sequence + 1) st' h hinv
    · rw [if_neg hle] at h
      have hlt : st.last_sequence < sequence := Nat.not_le.mp hle
      cases hres : resolve ts.uri with
      | error e =>
        rw [hres] at h
        exact absurd h (by simp)
      | ok u =>
        rw [hres] at h
        simp only at h
        by_cases hu : u = ""
        · rw [if_pos hu] at h
          exact ih st sequence st' h hinv
        · rw [if_neg hu] at h
          have hinv2 : CacheInv { st with
              ts_entries := st.ts_entries ++
                [{ url := u, sequence := sequence, length := ts.duration, size := 0 }]
              last_sequence := sequence
              ts_length := st.ts_length + ts.duration
              cache_size := st.cache_size + (dl u).getD 0 } := by
            constructor
            · refine List.Chain'.append hinv.1 (List.chain'_singleton _) ?_
              intro x hx y hy
              simp only [List.head?_cons, Option.mem_def, Option.some.injEq] at hy
              subst hy
              have hxmem : x ∈ st.ts_entries := List.mem_of_mem_getLast? hx
              exact lt_of_le_of_lt (hinv.2 x hxmem) hlt
            · intro e he
              rcases List.mem_append.mp he with hold | hnew
              · exact le_trans (hinv.2 e hold) (le_of_lt hlt)
              · simp only [List.mem_singleton] at hnew
                subst hnew
                exact le_refl _
          obtain ⟨hinv', hlast', tail2, htail2, hgt2, hlen2⟩ :=
            ih _ (sequence + 1) st' h hinv2
          refine ⟨hinv', le_trans (le_of_lt hlt) hlast', ?_⟩
          refine ⟨⟨u, sequence, ts.duration, 0⟩ :: tail2, ?_, ?_, ?_⟩
          · rw [htail2]
            simp [List.append_assoc]
          · intro e he
            rcases List.mem_cons.mp he with he | he
            · subst he
              exact hlt
            · exact lt_trans hlt (hgt2 e he)
          · rw [hlen2]
            simp only [List.map_cons, List.sum_cons]
            ring

/-- Specification of a whole run of ingestion cycles: the cache
invariant is preserved and each run only appends fresh entries. -/
theorem run_cycles_spec (resolve : String → Except RecorderError String)
    (dl : String → Option Nat) :
    ∀ (cycles : List (Nat × List MediaSeg)) (st st' : RecorderState),
      run_cycles resolve dl st cycles = Except.ok st' →
      CacheInv st →
      CacheInv st' ∧ st.last_sequence ≤ st'.last_sequence ∧
        ∃ tail, st'.ts_entries = st.ts_entries ++ tail ∧
          ∀ e ∈ tail, st.last_sequence < e.sequence := by
  intro cycles
  induction cycles with
  | nil =>
    intro st st' h hinv
    simp only [run_cycles, Except.ok.injEq] at h
    subst h
    exact ⟨hinv, le_refl _, [], by simp, by simp⟩
  | cons c rest ih =>
    intro st st' h hinv
    obtain ⟨media_sequence, segments⟩ := c
    simp only [run_cycles] at h
    cases hu : update_entries_segments resolve dl st media_sequence segments with
    | error e =>
      rw [hu] at h
      exact absurd h (by simp)
    | ok st1 =>
      rw [hu] at h
      obtain ⟨hinv1, hl1, t1, he1, hg1, _⟩ :=
        segments_spec resolve dl segments st media_sequence st1 hu hinv
      obtain ⟨hinv', hl', t2, he2, hg2⟩ := ih st1 st' h hinv1
      refine ⟨hinv', le_trans hl1 hl', t1 ++ t2, ?_, ?_⟩
      · rw [he2, he1, List.append_assoc]
      · intro e he
        rcases List.mem_append.mp he with h1 | h2
        · exact hg1 e h1
        · exact lt_of_le_of_lt hl1 (hg2 e h2)

/-! ### Concrete fixtures used by witnesses and counterexamples -/

/-- A fresh live recorder state with an established header of size 5
already counted in cache_size, as update_entries leaves it right after
the header download. -/
def stFresh : RecorderState :=
  { m3u8_url := "http://x/index.m3u8", live_status := true, last_sequence := 0,
    ts_length := 0, timestamp := 100, ts_entries := [],
    header := some ⟨"http://x/h100.m4s", 0, 0, 5⟩,
    stream_type := StreamType.FMP4, cache_size := 5 }

/-- A url resolver that always succeeds and returns a non-empty
absolute url. -/
def resolveW (uri : String) : Except RecorderError String :=
  Except.ok ("http://x/" ++ uri)

/-- A downloader that reports 10 bytes for every url. -/
def dlW (_ : String) : Option Nat := some 10

/-! ### C1 -/

/-- C1: across any run of ingestion cycles starting from a state
satisfying the cache invariant, the cache always carries strictly
increasing sequence numbers and only grows by entries whose sequences
strictly exceed the previously recorded last sequence; moreover a
playlist whose listed window lies entirely at or below the recorded
last sequence leaves the state untouched, so re-delivered sequences
never produce duplicate cache entries. -/
theorem C1_sequences_strictly_increasing
    (resolve : String → Except RecorderError String) (dl : String → Option Nat) :
    (∀ (cycles : List (Nat × List MediaSeg)) (st st' : RecorderState),
        CacheInv st → run_cycles resolve dl st cycles = Except.ok st' →
        List.Chain' (fun a b => a.sequence < b.sequence) st'.ts_entries ∧
          ∃ tail, st'.ts_entries = st.ts_entries ++ tail ∧
            ∀ e ∈ tail, st.last_sequence < e.sequence) ∧
    (∀ (st : RecorderState) (media_sequence : Nat) (segs : List MediaSeg)
        (st' : RecorderState),
        media_sequence + segs.length ≤ st.last_sequence + 1 →
        update_entries_segments resolve dl st media_sequence segs = Except.ok st' →
        st' = st) := by
  constructor
  · intro cycles st st' hinv h
    obtain ⟨hinv', _, tail, htail, hgt⟩ := run_cycles_spec resolve dl cycles st st' h hinv
    exact ⟨hinv'.1, tail, htail, hgt⟩
  · intro st media_sequence segs
    induction segs generalizing media_sequence with
    | nil =>
      intro st' _ h
      simp only [update_entries_segments, Except.ok.injEq] at h
      exact h.symm
    | cons ts rest ih =>
      intro st' hbound h
      simp only [update_entries_segments] at h
      have hle : media_sequence ≤ st.last_sequence := by
        simp only [List.length_cons] at hbound
        omega
      rw [if_pos hle] at h
      refine ih (media_sequence + 1) st' ?_ h
      simp only [List.length_cons] at hbound
      omega

/-- Witness for C1 at a concrete run: one cycle appending sequence 1 on
a fresh state, then a second cycle re-delivering the same window. -/
theorem C1_sequences_strictly_increasing_witness :
    (List.Chain' (fun a b => a.sequence < b.sequence)
        (RecorderState.ts_entries { stFresh with
          ts_entries := [⟨"http://x/1.m4s", 1, 1, 0⟩], last_sequence := 1,
          ts_length := 1, cache_size := 15 }) ∧
      ∃ tail, ({ stFresh with
          ts_entries := [⟨"http://x/1.m4s", 1, 1, 0⟩], last_sequence := 1,
          ts_length := 1, cache_size := 15 } : RecorderState).ts_entries =
          stFresh.ts_entries ++ tail ∧
        ∀ e ∈ tail, stFresh.last_sequence < e.sequence) ∧
    ({ stFresh with
        ts_entries := [⟨"http://x/1.m4s", 1, 1, 0⟩], last_sequence := 1,
        ts_length := 1, cache_size := 15 } : RecorderState) =
      { stFresh with
        ts_entries := [⟨"http://x/1.m4s", 1, 1, 0⟩], last_sequence := 1,
        ts_length := 1, cache_size := 15 } := by
  constructor
  · exact (C1_sequences_strictly_increasing resolveW dlW).1
      [(1, [⟨"1.m4s", 1⟩])] stFresh _
      (by constructor <;> simp [stFresh])
      (by simp [run_cycles, update_entries_segments, resolveW, dlW, stFresh])
  · exact (C1_sequences_strictly_increasing resolveW dlW).2
      { stFresh with
        ts_entries := [⟨"http://x/1.m4s", 1, 1, 0⟩], last_sequence := 1,
        ts_length := 1, cache_size := 15 } 1 [⟨"1.m4s", 1⟩] _
      (by simp)
      (by simp [update_entries_segments])

/-! ### C2 -/

/-- A live state with cached segments and a nonzero byte counter, used
to exercise the offline reset. -/
def stLive : RecorderState :=
  { m3u8_url := "http://x/index.m3u8", live_status := true, last_sequence := 3,
    ts_length := 3, timestamp := 100,
    ts_entries := [⟨"http://x/1.m4s", 1, 1, 0⟩, ⟨"http://x/2.m4s", 2, 1, 0⟩,
      ⟨"http://x/3.m4s", 3, 1, 0⟩],
    header := some ⟨"http://x/h100.m4s", 0, 0, 5⟩,
    stream_type := StreamType.FMP4, cache_size := 35 }

/-- C2 counterexample: on a live-to-offline transition the cumulative
byte-size counter is not zeroed; on a live state with cache_size 35 the
poll reporting offline leaves cache_size at 35. -/
theorem C2_reset_counterexample :
    (check_status stLive (some false) none).1.cache_size = 35 ∧ (35 : Nat) ≠ 0 := by
  constructor
  · simp [check_status, reset, stLive]
  · decide

/-- C2 amended: on every live-to-offline transition detected by a
status poll, the reset clears the segment cache, the duration counter,
the last-seen sequence, the header and the session timestamp, and the
live flag becomes false; the cumulative byte-size counter is not
cleared and keeps its previous value. -/
theorem C2_reset_amended (st : RecorderState) (hlive : st.live_status = true) :
    (check_status st (some false) none).1.ts_entries = [] ∧
    (check_status st (some false) none).1.ts_length = 0 ∧
    (check_status st (some false) none).1.last_sequence = 0 ∧
    (check_status st (some false) none).1.header = none ∧
    (check_status st (some false) none).1.timestamp = 0 ∧
    (check_status st (some false) none).1.live_status = false ∧
    (check_status st (some false) none).1.cache_size = st.cache_size := by
  simp [check_status, reset]

/-- Witness for C2 on the concrete live state. -/
theorem C2_reset_amended_witness :
    (check_status stLive (some false) none).1.ts_entries = [] ∧
    (check_status stLive (some false) none).1.ts_length = 0 ∧
    (check_status stLive (some false) none).1.last_sequence = 0 ∧
    (check_status stLive (some false) none).1.header = none ∧
    (check_status stLive (some false) none).1.timestamp = 0 ∧
    (check_status stLive (some false) none).1.live_status = false ∧
    (check_status stLive (some false) none).1.cache_size = stLive.cache_size :=
  C2_reset_amended stLive rfl

/-! ### C7 -/

/-- C7 counterexample: ingesting one segment whose playlist-declared
duration is 2 increments the duration counter by 2, not by one fixed
unit. -/
theorem C7_duration_counterexample :
    (update_entries_segments resolveW dlW stFresh 1
        [⟨"1.m4s", 2⟩]).map RecorderState.ts_length = Except.ok 2 ∧
    (2 : ℚ) ≠ stFresh.ts_length + 1 := by
  constructor
  · simp [update_entries_segments, Except.map, resolveW, dlW, stFresh]
  · simp [stFresh]

/-- C7 amended: for every successfully processed playlist, the cache
grows by a suffix of entries and the cumulative duration counter is
incremented by the playlist-declared duration of each appended segment
(the sum of the appended declared durations), not by one fixed unit per
segment. -/
theorem C7_duration_amended
    (resolve : String → Except RecorderError String) (dl : String → Option Nat)
    (segs : List MediaSeg) (st : RecorderState) (media_sequence : Nat)
    (st' : RecorderState)
    (h : update_entries_segments resolve dl st media_sequence segs = Except.ok st')
    (hinv : CacheInv st) :
    ∃ tail, st'.ts_entries = st.ts_entries ++ tail ∧
      st'.ts_length = st.ts_length + (tail.map TsEntry.length).sum := by
  obtain ⟨_, _, tail, htail, _, hlen⟩ :=
    segments_spec resolve dl segs st media_sequence st' h hinv
  exact ⟨tail, htail, hlen⟩

/-- Witness for C7 at a concrete ingestion of one segment of declared
duration 2. -/
theorem C7_duration_amended_witness :
    ∃ tail, ({ stFresh with
        ts_entries := [⟨"http://x/1.m4s", 1, 2, 0⟩], last_sequence := 1,
        ts_length := 2, cache_size := 15 } : RecorderState).ts_entries =
        stFresh.ts_entries ++ tail ∧
      ({ stFresh with
        ts_entries := [⟨"http://x/1.m4s", 1, 2, 0⟩], last_sequence := 1,
        ts_length := 2, cache_size := 15 } : RecorderState).ts_length =
        stFresh.ts_length + (tail.map TsEntry.length).sum :=
  C7_duration_amended resolveW dlW [⟨"1.m4s", 2⟩] stFresh 1 _
    (by simp [update_entries_segments, resolveW, dlW, stFresh])
    (by constructor <;> simp [stFresh])

/-! ### C4 and C5 -/

/-- Five one-unit segments with sequences 0 through 4, as scanned from a
session directory or cached in memory. -/
def entriesFive : List TsEntry :=
  [⟨"0.m4s", 0, 1, 0⟩, ⟨"1.m4s", 1, 1, 0⟩, ⟨"2.m4s", 2, 1, 0⟩,
   ⟨"3.m4s", 3, 1, 0⟩, ⟨"4.m4s", 4, 1, 0⟩]

/-- C4 counterexample: on segments 0 through 4 the archive scan for the
range 1 to 3 selects sequences 1, 2, 3 and 4, not the claimed set 1, 2,
3: the archive loop checks its stop condition strictly and only after
collecting an entry, so one extra segment past the end bound is
included. -/
theorem C4_range_counterexample :
    (clip_archive_media entriesFive 1 3).map TsEntry.sequence = [1, 2, 3, 4] ∧
    ([1, 2, 3, 4] : List Nat) ≠ [1, 2, 3] := by
  constructor
  · norm_num [clip_archive_media, clip_archive_scan, entriesFive]
  · decide

/-- C4 amended: on segments with sequences 0 through 4, each weighted
one cache unit, the range 1 to 3 selects exactly sequences 1, 2, 3 in
the live-cache path (boundary-inclusive at both ends), while the
archive directory-scan path selects sequences 1, 2, 3, 4, including
one extra segment past the end bound. -/
theorem C4_range_selection :
    (clip_live_media entriesFive 1 3).map TsEntry.sequence = [1, 2, 3] ∧
    (clip_archive_media entriesFive 1 3).map TsEntry.sequence = [1, 2, 3, 4] := by
  constructor
  · norm_num [clip_live_media, clip_live_scan, entriesFive]
  · norm_num [clip_archive_media, clip_archive_scan, entriesFive]

/-- C5 counterexample: the archive path does not normalize reversed
bounds; on segments 0 through 4 the ranges 3 to 1 and 1 to 3 select
different file sets. -/
theorem C5_swap_counterexample :
    (clip_archive_media entriesFive 3 1).map TsEntry.sequence = [3] ∧
    (clip_archive_media entriesFive 1 3).map TsEntry.sequence = [1, 2, 3, 4] ∧
    ([3] : List Nat) ≠ [1, 2, 3, 4] := by
  refine ⟨?_, ?_, by decide⟩
  · norm_num [clip_archive_media, clip_archive_scan, entriesFive]
  · norm_num [clip_archive_media, clip_archive_scan, entriesFive]

/-- C5 amended: only the live path normalizes bound order before
scanning: for every cache and every pair of bounds, the live selection
with reversed bounds equals the selection with the bounds in ascending
order. The archive path performs no normalization and can differ on
reversed bounds. -/
theorem C5_swap_amended (entries : List TsEntry) (x y : ℚ) :
    clip_live_media entries x y = clip_live_media entries y x := by
  unfold clip_live_media
  rcases lt_trichotomy x y with h | h | h
  · rw [if_neg (not_lt.mpr (le_of_lt h)), if_neg (not_lt.mpr (le_of_lt h)),
      if_pos h, if_pos h]
  · subst h
    simp
  · rw [if_pos h, if_pos h, if_neg (not_lt.mpr (le_of_lt h)),
      if_neg (not_lt.mpr (le_of_lt h))]

/-! ### C3 -/

/-- Wrapping u64 subtraction agrees with truncated Nat subtraction on
ordered bounded arguments. -/
theorem u64_sub_eq {a b : Nat} (hba : b ≤ a) (ha : a < 2 ^ 64) :
    u64_sub a b = a - b := by
  unfold u64_sub
  rw [Nat.add_sub_assoc hba, Nat.add_mod_left]
  exact Nat.mod_eq_of_lt (lt_of_le_of_lt (Nat.sub_le a b) ha)

/-- Reference shape of a playlist body after its first entry: walking
adjacent pairs, a discontinuity line appears exactly when the later
entry of the pair exceeds the earlier one by more than 1, and it is
placed immediately before the later entry. -/
def gap_tail (fmt : TsEntry → M3u8Line) : TsEntry → List TsEntry → List M3u8Line
  | _, [] => []
  | prev, e :: rest =>
    (if prev.sequence + 1 < e.sequence then [M3u8Line.discontinuity] else []) ++
    [M3u8Line.extinf, fmt e] ++ gap_tail fmt e rest

/-- Reference shape of a whole playlist body: the first entry is never
preceded by a marker; afterwards markers follow the adjacent-gap rule
of gap_tail. -/
def gap_marked_body (fmt : TsEntry → M3u8Line) : List TsEntry → List M3u8Line
  | [] => []
  | e :: rest => [M3u8Line.extinf, fmt e] ++ gap_tail fmt e rest

/-- The generator body loop equals the reference shape on sorted
bounded entries, for any uri formatting. -/
theorem body_lines_eq_gap_marked (fmt : TsEntry → M3u8Line) :
    ∀ (t : List TsEntry) (prev : TsEntry),
      List.Chain' (fun a b => a.sequence ≤ b.sequence) (prev :: t) →
      (∀ e ∈ prev :: t, e.sequence < 2 ^ 64) →
      body_lines fmt t prev.sequence = gap_tail fmt prev t := by
  intro t
  induction t with
  | nil =>
    intro prev _ _
    rfl
  | cons e rest ih =>
    intro prev hchain hbound
    have hpe : prev.sequence ≤ e.sequence :=
      (List.chain'_cons.mp hchain).1
    have hb : e.sequence < 2 ^ 64 := hbound e (by simp)
    have hcond : (1 < u64_sub e.sequence prev.sequence) ↔
        (prev.sequence + 1 < e.sequence) := by
      rw [u64_sub_eq hpe hb]
      omega
    simp only [body_lines, gap_tail]
    rw [if_congr hcond rfl rfl,
      ih e (List.chain'_cons.mp hchain).2 (by intro x hx; exact hbound x (by simp [hx]))]

/-- C3: in both synthesized playlist modes, over sorted bounded entry
lists as produced by the cache invariant and the directory-scan sort,
the generated body equals the reference gap-marked shape, in which a
discontinuity line appears exactly before each entry whose sequence
exceeds its predecessor by more than 1 and nowhere else, and the first
entry is never preceded by a marker. -/
theorem C3_discontinuity_iff (room_id timestamp : Nat)
    (first : TsEntry) (rest : List TsEntry)
    (hchain : List.Chain' (fun a b => a.sequence ≤ b.sequence) (first :: rest))
    (hbound : ∀ e ∈ first :: rest, e.sequence < 2 ^ 64) :
    body_lines (live_fmt room_id timestamp) (first :: rest) first.sequence =
      gap_marked_body (live_fmt room_id timestamp) (first :: rest) ∧
    body_lines (archive_fmt room_id timestamp) (first :: rest) first.sequence =
      gap_marked_body (archive_fmt room_id timestamp) (first :: rest) := by
  have hself : u64_sub first.sequence first.sequence = 0 := by
    rw [u64_sub_eq (le_refl _) (hbound first (by simp))]
    omega
  constructor
  · simp only [body_lines, gap_marked_body, hself]
    rw [if_neg (by omega)]
    simp only [List.nil_append]
    rw [body_lines_eq_gap_marked (live_fmt room_id timestamp) rest first hchain hbound]
  · simp only [body_lines, gap_marked_body, hself]
    rw [if_neg (by omega)]
    simp only [List.nil_append]
    rw [body_lines_eq_gap_marked (archive_fmt room_id timestamp) rest first hchain hbound]

/-- Entries with sequences 5, 6 and 8: the example from the claim. -/
def entries568 : List TsEntry :=
  [⟨"5.m4s", 5, 1, 0⟩, ⟨"6.m4s", 6, 1, 0⟩, ⟨"8.m4s", 8, 1, 0⟩]

/-- Witness for C3 on entries 5, 6, 8: the theorem applies, and the
resulting body contains exactly one discontinuity line, placed
immediately before the lines of the entry with sequence 8. -/
theorem C3_discontinuity_iff_witness :
    (body_lines (live_fmt 1 100) entries568 5 =
        gap_marked_body (live_fmt 1 100) entries568 ∧
      body_lines (archive_fmt 1 100) entries568 5 =
        gap_marked_body (archive_fmt 1 100) entries568) ∧
    gap_marked_body (live_fmt 1 100) entries568 =
      [M3u8Line.extinf, M3u8Line.media_uri 1 100 "5.m4s",
       M3u8Line.extinf, M3u8Line.media_uri 1 100 "6.m4s",
       M3u8Line.discontinuity,
       M3u8Line.extinf, M3u8Line.media_uri 1 100 "8.m4s"] := by
  constructor
  · exact C3_discontinuity_iff 1 100 ⟨"5.m4s", 5, 1, 0⟩
      [⟨"6.m4s", 6, 1, 0⟩, ⟨"8.m4s", 8, 1, 0⟩]
      (by simp) (by decide)
  · decide

/-! ### C9 -/

/-- C9 counterexample: the directory scan shared by restore, archive
playlist synthesis and archive clip extraction panics on a regular file
whose stem is not a valid u64, a failure that is neither reported as an
error nor a clip-output directory-creation failure. -/
theorem C9_panic_counterexample :
    get_fs_entries [⟨some true, some "foo.mp4", some 100⟩] =
      PRes.panicked "foo.mp4" := by
  decide

/-- On a listing where every successfully typed regular file has a
UTF-8 name, and every such non-header name has a u64-parseable stem and
readable metadata, every entry is either skipped or fully read, so the
scanning pass completes without a panic. -/
theorem scan_files_total :
    ∀ files : List FsFile,
      (∀ f ∈ files, f.file_type = some true →
        ∃ file_name, f.name = some file_name ∧
          (startsWithH file_name = false →
            (parseU64 (stemOf file_name)).isSome = true ∧ f.size.isSome = true)) →
      ∃ entries, scan_files files = PRes.ret entries := by
  intro files
  induction files with
  | nil =>
    intro _
    exact ⟨[], rfl⟩
  | cons f rest ih =>
    intro h
    obtain ⟨l, hl⟩ := ih (fun g hg hgt => h g (List.mem_cons_of_mem f hg) hgt)
    simp only [scan_files]
    cases hft : f.file_type with
    | none => exact ⟨l, hl⟩
    | some is_file =>
      cases is_file with
      | false => exact ⟨l, by simp [hl]⟩
      | true =>
        obtain ⟨file_name, hname, hrest⟩ := h f (List.mem_cons_self f rest) hft
        rw [hname]
        simp only
        cases hh : startsWithH file_name with
        | true => exact ⟨l, by simp [hl]⟩
        | false =>
          obtain ⟨hstem, hsize⟩ := hrest hh
          cases hps : parseU64 (stemOf file_name) with
          | none =>
            rw [hps] at hstem
            simp at hstem
          | some sequence =>
            cases hsz : f.size with
            | none =>
              rw [hsz] at hsize
              simp at hsize
            | some size =>
              exact ⟨⟨file_name, sequence, 1, size⟩ :: l, by simp [hl]⟩

/-- C9 amended: besides the clip-output directory-creation aborts, the
engine also panics inside the directory scan backing restore, archive
playlist synthesis and archive clip extraction: on a regular file whose
OS name is not valid UTF-8, on a regular non-header file whose stem
does not parse as a u64 (an optional leading plus sign is accepted),
and on a metadata read failure; further unwrap aborts exist at cache
work-dir creation, the missing live header in fMP4 clipping, transcoder
spawn and notification delivery. The scan completes without a panic on
every listing in which each successfully typed regular file has a
UTF-8 name and each such non-header file has a parseable stem and
readable metadata. -/
theorem C9_panic_amended (files : List FsFile)
    (h : ∀ f ∈ files, f.file_type = some true →
      ∃ file_name, f.name = some file_name ∧
        (startsWithH file_name = false →
          (parseU64 (stemOf file_name)).isSome = true ∧ f.size.isSome = true)) :
    ∃ entries, get_fs_entries files = PRes.ret entries := by
  obtain ⟨l, hl⟩ := scan_files_total files h
  exact ⟨sortEntries l, by simp [get_fs_entries, hl]⟩

/-- Witness for C9 on a listing holding one media file and the header
file. -/
theorem C9_panic_amended_witness :
    ∃ entries, get_fs_entries
      [⟨some true, some "1.m4s", some 10⟩, ⟨some true, some "h100.m4s", some 5⟩] =
      PRes.ret entries :=
  C9_panic_amended
    [⟨some true, some "1.m4s", some 10⟩, ⟨some true, some "h100.m4s", some 5⟩]
    (by intro f hf hft
        fin_cases hf
        · exact ⟨"1.m4s", rfl, by decide⟩
        · exact ⟨"h100.m4s", rfl, by decide⟩)

/-! ### C10 -/

/-- C10: inserting an archive record whose live_id already exists in
the store for the same room returns the previously stored record for
that room and session, and leaves the store unchanged, rather than
returning an error. -/
theorem C10_duplicate_insert (db : List RecordRow) (live_id room_id : Nat)
    (title now : String) (r : RecordRow)
    (hfind : db.find? (fun q => q.live_id == live_id && q.room_id == room_id) = some r) :
    add_record db live_id room_id title now = (db, Except.ok r) := by
  have hpred := List.find?_some hfind
  have hmem := List.mem_of_find?_eq_some hfind
  have hany : db.any (fun q => q.live_id == live_id) = true := by
    refine List.any_eq_true.mpr ⟨r, hmem, ?_⟩
    simp only [Bool.and_eq_true] at hpred
    exact hpred.1
  simp only [add_record, hany, if_true, get_record, hfind]

/-- A store already holding the record of live 100 in room 1. -/
def dbW : List RecordRow := [⟨100, 1, "t", 0, 0, "2024-01-01"⟩]

/-- Witness for C10: re-registering live 100 for room 1 returns the
stored record and does not modify the store. -/
theorem C10_duplicate_insert_witness :
    add_record dbW 100 1 "other title" "2024-06-01" =
      (dbW, Except.ok ⟨100, 1, "t", 0, 0, "2024-01-01"⟩) :=
  C10_duplicate_insert dbW 100 1 "other title" "2024-06-01"
    ⟨100, 1, "t", 0, 0, "2024-01-01"⟩ (by decide)

/-! ### C8 -/

/-- Media uri lines of a playlist, in order: the segment set a player
sees. -/
def media_uris : List M3u8Line → List (Nat × Nat × String)
  | [] => []
  | M3u8Line.media_uri room_id timestamp name :: rest =>
    (room_id, timestamp, name) :: media_uris rest
  | _ :: rest => media_uris rest

/-- The media uri lines of concatenated line lists concatenate. -/
theorem media_uris_append :
    ∀ l1 l2 : List M3u8Line, media_uris (l1 ++ l2) = media_uris l1 ++ media_uris l2 := by
  intro l1 l2
  induction l1 with
  | nil => rfl
  | cons a rest ih =>
    cases a <;> simp [media_uris, ih]

/-- Media uri lines of a live body are the cached entries, formatted by
the last component of their urls. -/
theorem media_uris_body_live (room_id timestamp : Nat) :
    ∀ (entries : List TsEntry) (last_sequence : Nat),
      media_uris (body_lines (live_fmt room_id timestamp) entries last_sequence) =
        entries.map (fun e => (room_id, timestamp, lastComponent e.url)) := by
  intro entries
  induction entries with
  | nil => intro _; rfl
  | cons e rest ih =>
    intro last_sequence
    simp only [body_lines]
    by_cases hgap : 1 < u64_sub e.sequence last_sequence
    · rw [if_pos hgap]
      simp [media_uris, live_fmt, ih]
    · rw [if_neg hgap]
      simp [media_uris, live_fmt, ih]

/-- Media uri lines of an archive body are the scanned entries,
formatted by their on-disk file names. -/
theorem media_uris_body_archive (room_id timestamp : Nat) :
    ∀ (entries : List TsEntry) (last_sequence : Nat),
      media_uris (body_lines (archive_fmt room_id timestamp) entries last_sequence) =
        entries.map (fun e => (room_id, timestamp, e.url)) := by
  intro entries
  induction entries with
  | nil => intro _; rfl
  | cons e rest ih =>
    intro last_sequence
    simp only [body_lines]
    by_cases hgap : 1 < u64_sub e.sequence last_sequence
    · rw [if_pos hgap]
      simp [media_uris, archive_fmt, ih]
    · rw [if_neg hgap]
      simp [media_uris, archive_fmt, ih]

/-- A body loop never emits an end marker when its formatter does
not. -/
theorem endlist_not_mem_body (fmt : TsEntry → M3u8Line)
    (hfmt : ∀ e, fmt e ≠ M3u8Line.endlist) :
    ∀ (entries : List TsEntry) (last_sequence : Nat),
      M3u8Line.endlist ∉ body_lines fmt entries last_sequence := by
  intro entries
  induction entries with
  | nil =>
    intro _
    simp [body_lines]
  | cons e rest ih =>
    intro last_sequence
    simp only [body_lines]
    by_cases hgap : 1 < u64_sub e.sequence last_sequence
    · rw [if_pos hgap]
      simp only [List.cons_append, List.nil_append, List.mem_cons, not_or]
      refine ⟨by simp, by simp, ?_, ih e.sequence⟩
      intro h
      exact hfmt e h.symm
    · rw [if_neg hgap]
      simp only [List.cons_append, List.nil_append, List.mem_cons, not_or]
      refine ⟨by simp, ?_, ih e.sequence⟩
      intro h
      exact hfmt e h.symm

/-- C8: while a session is live, requesting its playlist yields EVENT
lines with no end marker; after a status poll detects the session
offline, the same request is served from the archive path and yields a
VOD playlist ending in an end-marker line, whose media uri lines equal
those of the last live request whenever the on-disk names and sequences
match the cached ones. -/
theorem C8_event_to_vod (room_id : Nat) (st : RecorderState)
    (fs_entries : List TsEntry) (timestamp : Nat)
    (hlive : st.live_status = true)
    (hts : st.timestamp = timestamp)
    (hts0 : timestamp ≠ 0)
    (hne : st.ts_entries ≠ [])
    (hfs : fs_entries.map (fun e => (e.sequence, e.url)) =
      st.ts_entries.map (fun e => (e.sequence, lastComponent e.url))) :
    M3u8Line.playlist_type "EVENT" ∈ generate_m3u8 room_id st fs_entries timestamp ∧
    M3u8Line.endlist ∉ generate_m3u8 room_id st fs_entries timestamp ∧
    M3u8Line.playlist_type "VOD" ∈
      generate_m3u8 room_id (check_status st (some false) none).1 fs_entries timestamp ∧
    (generate_m3u8 room_id (check_status st (some false) none).1 fs_entries
        timestamp).getLast? = some M3u8Line.endlist ∧
    media_uris (generate_m3u8 room_id (check_status st (some false) none).1 fs_entries
        timestamp) = media_uris (generate_m3u8 room_id st fs_entries timestamp) := by
  obtain ⟨e0, t0, hcons⟩ := List.exists_cons_of_ne_nil hne
  have hfne : fs_entries ≠ [] := by
    intro hnil
    rw [hnil, hcons] at hfs
    simp at hfs
  obtain ⟨f0, ft, hfcons⟩ := List.exists_cons_of_ne_nil hfne
  subst hfcons
  have hurl : (f0 :: ft).map (fun e => e.url) =
      st.ts_entries.map (fun e => lastComponent e.url) := by
    have h2 := congrArg (List.map Prod.snd) hfs
    simpa [List.map_map, Function.comp] using h2
  -- the live request dispatches to the live generator
  have hdisp : generate_m3u8 room_id st (f0 :: ft) timestamp = generate_live_m3u8 room_id st := by
    simp [generate_m3u8, hts]
  -- the offline state after the poll
  have hoff : (check_status st (some false) none).1 = { reset st with live_status := false } := rfl
  have hdisp2 : generate_m3u8 room_id (check_status st (some false) none).1 (f0 :: ft)
      timestamp = generate_archive_m3u8 room_id timestamp (f0 :: ft) := by
    rw [hoff]
    simp [generate_m3u8, reset]
    intro hcontra
    exact absurd hcontra.symm hts0
  have hlivegen : generate_live_m3u8 room_id st =
      ([M3u8Line.extm3u, M3u8Line.version, M3u8Line.target_duration,
        M3u8Line.playlist_type "EVENT"] ++
        (match st.header with
         | some h => [M3u8Line.map_uri room_id st.timestamp (lastComponent h.url)]
         | none => [])) ++
      body_lines (live_fmt room_id st.timestamp) st.ts_entries e0.sequence := by
    rw [generate_live_m3u8, hlive]
    rw [hcons]
    simp only [hlive, if_true]
    rw [← hcons]
    simp
  have harchgen : generate_archive_m3u8 room_id timestamp (f0 :: ft) =
      ([M3u8Line.extm3u, M3u8Line.version, M3u8Line.target_duration,
        M3u8Line.playlist_type "VOD",
        M3u8Line.map_uri room_id timestamp ("h" ++ toString timestamp ++ ".m4s")] ++
        body_lines (archive_fmt room_id timestamp) (f0 :: ft) f0.sequence) ++
      [M3u8Line.endlist] := rfl
  refine ⟨?_, ?_, ?_, ?_, ?_⟩
  · rw [hdisp, hlivegen]
    simp
  · rw [hdisp, hlivegen]
    intro hmem
    rcases List.mem_append.mp hmem with h1 | h2
    · rcases List.mem_append.mp h1 with h3 | h4
      · simp at h3
      · cases hh : st.header with
        | none => rw [hh] at h4; simp at h4
        | some h => rw [hh] at h4; simp at h4
    · exact endlist_not_mem_body (live_fmt room_id st.timestamp)
        (fun e => by simp [live_fmt]) st.ts_entries e0.sequence h2
  · rw [hdisp2, harchgen]
    simp
  · rw [hdisp2, harchgen]
    exact List.getLast?_concat _
  · rw [hdisp, hdisp2, hlivegen, harchgen]
    have key : (f0 :: ft).map (fun e => (room_id, timestamp, e.url)) =
        st.ts_entries.map (fun e => (room_id, timestamp, lastComponent e.url)) := by
      have lhs_eq : (f0 :: ft).map (fun e => (room_id, timestamp, e.url)) =
          ((f0 :: ft).map (fun e => e.url)).map (fun u => (room_id, timestamp, u)) := by
        rw [List.map_map]
        rfl
      have rhs_eq : st.ts_entries.map (fun e => (room_id, timestamp, lastComponent e.url)) =
          (st.ts_entries.map (fun e => lastComponent e.url)).map
            (fun u => (room_id, timestamp, u)) := by
        rw [List.map_map]
        rfl
      rw [lhs_eq, rhs_eq, hurl]
    rw [media_uris_append, media_uris_append, media_uris_append,
      media_uris_body_archive, media_uris_body_live, hts, key]
    cases hh : st.header with
    | none => simp [media_uris]
    | some hdr => simp [media_uris, media_uris_append]

/-- On-disk entries matching the cache of stLive. -/
def fsLive : List TsEntry :=
  [⟨"1.m4s", 1, 1, 10⟩, ⟨"2.m4s", 2, 1, 10⟩, ⟨"3.m4s", 3, 1, 10⟩]

/-- Witness for C8 on the concrete live state and its on-disk
mirror. -/
theorem C8_event_to_vod_witness :
    M3u8Line.playlist_type "EVENT" ∈ generate_m3u8 1 stLive fsLive 100 ∧
    M3u8Line.endlist ∉ generate_m3u8 1 stLive fsLive 100 ∧
    M3u8Line.playlist_type "VOD" ∈
      generate_m3u8 1 (check_status stLive (some false) none).1 fsLive 100 ∧
    (generate_m3u8 1 (check_status stLive (some false) none).1 fsLive 100).getLast? =
      some M3u8Line.endlist ∧
    media_uris (generate_m3u8 1 (check_status stLive (some false) none).1 fsLive 100) =
      media_uris (generate_m3u8 1 stLive fsLive 100) :=
  C8_event_to_vod 1 stLive fsLive 100 rfl rfl (by decide) (by decide) (by decide)

/-! ### C6 -/

/-- Url a segment uri resolves to, or the empty string on resolver
failure; the hypotheses below exclude the failing case. -/
def resolved (resolve : String → Except RecorderError String) (uri : String) : String :=
  match resolve uri with
  | .ok u => u
  | .error _ => ""

/-- Entries one loop pass appends for a segment window when every
segment resolves to a non-empty url: positionally increasing sequences
from the given media sequence, carrying the declared duration and a
zero size, exactly as the loop builds them. -/
def cycle_appended (resolve : String → Except RecorderError String) :
    Nat → List MediaSeg → List TsEntry
  | _, [] => []
  | sequence, s :: rest =>
    ⟨resolved resolve s.uri, sequence, s.duration, 0⟩ ::
      cycle_appended resolve (sequence + 1) rest

/-- Total bytes the downloader reports across a list of appended
entries. -/
def dl_total (dl : String → Option Nat) (entries : List TsEntry) : Nat :=
  (entries.map (fun e => (dl e.url).getD 0)).sum

/-- Appended entries carry the window positions as sequences. -/
theorem cycle_appended_sequences (resolve : String → Except RecorderError String) :
    ∀ (segs : List MediaSeg) (sequence : Nat),
      (cycle_appended resolve sequence segs).map TsEntry.sequence =
        List.range' sequence segs.length := by
  intro segs
  induction segs with
  | nil => intro _; rfl
  | cons s rest ih =>
    intro sequence
    simp [cycle_appended, List.range', ih]

/-- The appended-entry list of a split window splits at the
corresponding position. -/
theorem cycle_appended_append (resolve : String → Except RecorderError String) :
    ∀ (l1 l2 : List MediaSeg) (sequence : Nat),
      cycle_appended resolve sequence (l1 ++ l2) =
        cycle_appended resolve sequence l1 ++
          cycle_appended resolve (sequence + l1.length) l2 := by
  intro l1
  induction l1 with
  | nil => intro l2 sequence; simp [cycle_appended]
  | cons s rest ih =>
    intro l2 sequence
    simp only [List.cons_append, cycle_appended, List.append_eq, ih, List.length_cons]
    have h : sequence + (rest.length + 1) = sequence + 1 + rest.length := by omega
    rw [h]

/-- Download totals add across concatenation. -/
theorem dl_total_append (dl : String → Option Nat) (l1 l2 : List TsEntry) :
    dl_total dl (l1 ++ l2) = dl_total dl l1 + dl_total dl l2 := by
  simp [dl_total]

/-- Unit declared durations sum to the segment count. -/
theorem durations_sum_of_unit :
    ∀ segs : List MediaSeg, (∀ s ∈ segs, s.duration = 1) →
      (segs.map MediaSeg.duration).sum = (segs.length : ℚ) := by
  intro segs
  induction segs with
  | nil => intro _; simp
  | cons s rest ih =>
    intro h
    simp only [List.map_cons, List.sum_cons, List.length_cons]
    rw [h s (List.mem_cons_self s rest), ih (fun t ht => h t (List.mem_cons_of_mem s ht))]
    push_cast
    ring

/-- Closed form of the segment loop when no window entry is skipped
and every entry resolves to a non-empty url. -/
theorem segments_total (resolve : String → Except RecorderError String)
    (dl : String → Option Nat) :
    ∀ (segs : List MediaSeg) (st : RecorderState) (sequence : Nat),
      st.last_sequence < sequence →
      (∀ s ∈ segs, ∃ u, resolve s.uri = Except.ok u ∧ u ≠ "") →
      ∃ st', update_entries_segments resolve dl st sequence segs = Except.ok st' ∧
        st'.ts_entries = st.ts_entries ++ cycle_appended resolve sequence segs ∧
        st'.ts_length = st.ts_length + (segs.map MediaSeg.duration).sum ∧
        st'.cache_size = st.cache_size + dl_total dl (cycle_appended resolve sequence segs) ∧
        st'.last_sequence =
          (if segs.isEmpty then st.last_sequence else sequence + segs.length - 1) := by
  intro segs
  induction segs with
  | nil =>
    intro st sequence _ _
    exact ⟨st, rfl, by simp [cycle_appended], by simp, by simp [cycle_appended, dl_total],
      by simp⟩
  | cons s rest ih =>
    intro st sequence hlt hres
    obtain ⟨u, hu, hune⟩ := hres s (List.mem_cons_self s rest)
    have hnoskip : ¬ sequence ≤ st.last_sequence := Nat.not_le.mpr hlt
    obtain ⟨st', hrun, hent, hdur, hcache, hlast⟩ :=
      ih { st with
            ts_entries := st.ts_entries ++ [⟨u, sequence, s.duration, 0⟩]
            last_sequence := sequence
            ts_length := st.ts_length + s.duration
            cache_size := st.cache_size + (dl u).getD 0 }
        (sequence + 1) (by simp)
        (fun t ht => hres t (List.mem_cons_of_mem s ht))
    refine ⟨st', ?_, ?_, ?_, ?_, ?_⟩
    · simp only [update_entries_segments]
      rw [if_neg hnoskip, hu]
      simp only
      rw [if_neg hune]
      exact hrun
    · rw [hent]
      simp only [cycle_appended, resolved, hu]
      simp [List.append_assoc]
    · rw [hdur]
      simp only [List.map_cons, List.sum_cons]
      ring
    · rw [hcache]
      simp only [cycle_appended, resolved, hu, dl_total, List.map_cons, List.sum_cons]
      simp only [dl_total] at *
      omega
    · rw [hlast]
      cases rest with
      | nil => simp
      | cons r rs => simp; omega

/-- A window prefix that lies entirely at or below the recorded last
sequence is skipped wholesale, advancing only the running position. -/
theorem segments_skip (resolve : String → Except RecorderError String)
    (dl : String → Option Nat) :
    ∀ (l1 l2 : List MediaSeg) (st : RecorderState) (sequence : Nat),
      sequence + l1.length ≤ st.last_sequence + 1 →
      update_entries_segments resolve dl st sequence (l1 ++ l2) =
        update_entries_segments resolve dl st (sequence + l1.length) l2 := by
  intro l1
  induction l1 with
  | nil => intro l2 st sequence _; simp
  | cons s rest ih =>
    intro l2 st sequence hbound
    simp only [List.cons_append, update_entries_segments]
    have hle : sequence ≤ st.last_sequence := by
      simp only [List.length_cons] at hbound
      omega
    rw [if_pos hle]
    simp only [List.append_eq]
    rw [ih l2 st (sequence + 1) (by simp only [List.length_cons] at hbound ⊢; omega)]
    congr 1
    simp only [List.length_cons]
    omega

/-- Last element of a counting range. -/
theorem getLast?_range' : ∀ (n s : Nat), (List.range' s (n + 1)).getLast? = some (s + n) := by
  intro n
  induction n with
  | zero => intro s; rfl
  | succ n ih =>
    intro s
    have h1 : List.range' s (n + 2) = s :: List.range' (s + 1) (n + 1) := by
      simp [List.range']
    have h2 : List.range' (s + 1) (n + 1) = (s + 1) :: List.range' (s + 2) n := by
      simp [List.range']
    rw [h1, h2, List.getLast?_cons_cons, ← h2, ih]
    congr 1
    omega

/-- Counting ranges concatenate. -/
theorem range'_append_own : ∀ (a s n : Nat),
    List.range' s a ++ List.range' (s + a) n = List.range' s (a + n) := by
  intro a
  induction a with
  | zero => intro s n; simp
  | succ a ih =>
    intro s n
    have h1 : List.range' s (a + 1) = s :: List.range' (s + 1) a := by
      simp [List.range']
    have h2 : List.range' s (a + 1 + n) = s :: List.range' (s + 1) (a + n) := by
      have : a + 1 + n = (a + n) + 1 := by omega
      rw [this]
      simp [List.range']
    rw [h1, h2, List.cons_append, ← ih (s + 1) n]
    congr 3
    omega

/-- C6 amended: restoring the cache from an on-disk listing of the
already-ingested prefix and then ingesting the remaining playlist gives
the same cache ordering (sequence numbers) and the same cumulative
byte-size counter as one continuous ingestion, unconditionally; the
cumulative duration counters agree provided every declared duration is
one unit — the restore path weighs each restored segment as exactly one
cache unit while live ingestion accumulates declared durations, and the
counterexample shows the counters differ otherwise. The on-disk listing
is linked to the first-run prefix by its sequences and byte sizes, and
header_size models the header bytes counted after either start. -/
theorem C6_restore_amended
    (resolve : String → Except RecorderError String) (dl : String → Option Nat)
    (segs : List MediaSeg) (k media_sequence header_size : Nat)
    (st0 stF : RecorderState) (restored : List TsEntry)
    (hk : k ≤ segs.length)
    (hm : 1 ≤ media_sequence)
    (hres : ∀ s ∈ segs, ∃ u, resolve s.uri = Except.ok u ∧ u ≠ "")
    (h0e : st0.ts_entries = []) (h0l : st0.last_sequence = 0)
    (h0d : st0.ts_length = 0) (h0c : st0.cache_size = header_size)
    (hFe : stF.ts_entries = []) (hFl : stF.last_sequence = 0)
    (hFd : stF.ts_length = 0) (hFc : stF.cache_size = 0)
    (hrs : restored.map TsEntry.sequence =
      (cycle_appended resolve media_sequence (segs.take k)).map TsEntry.sequence)
    (hsz : (restored.map TsEntry.size).sum =
      dl_total dl (cycle_appended resolve media_sequence (segs.take k))) :
    ∃ stC stR,
      update_entries_segments resolve dl st0 media_sequence segs = Except.ok stC ∧
      update_entries_segments resolve dl
        { restore stF restored with
          cache_size := (restore stF restored).cache_size + header_size }
        media_sequence segs = Except.ok stR ∧
      stR.ts_entries.map TsEntry.sequence = stC.ts_entries.map TsEntry.sequence ∧
      stR.cache_size = stC.cache_size ∧
      ((∀ s ∈ segs, s.duration = 1) → stR.ts_length = stC.ts_length) := by
  have htake : (segs.take k).length = k := by
    simp [List.length_take, Nat.min_eq_left hk]
  have hrs' : restored.map TsEntry.sequence = List.range' media_sequence k := by
    rw [hrs, cycle_appended_sequences, htake]
  have hlenr : restored.length = k := by
    have h := congrArg List.length hrs'
    simpa using h
  obtain ⟨stC, hC, hCe, hCd, hCc, hCl⟩ :=
    segments_total resolve dl segs st0 media_sequence (by rw [h0l]; omega) hres
  by_cases hk0 : k = 0
  · subst hk0
    have hrnil : restored = [] := List.eq_nil_of_length_eq_zero hlenr
    subst hrnil
    have hrest : restore stF [] = stF := rfl
    obtain ⟨stR, hR, hRe, hRd, hRc, hRl⟩ :=
      segments_total resolve dl segs
        { restore stF [] with cache_size := (restore stF []).cache_size + header_size }
        media_sequence (by rw [hrest]; simp only; rw [hFl]; omega) hres
    refine ⟨stC, stR, hC, hR, ?_, ?_, ?_⟩
    · rw [hRe, hCe, hrest]
      simp only [h0e, hFe, List.nil_append]
    · rw [hRc, hCc, hrest]
      simp only [h0c, hFc]
      omega
    · intro _
      rw [hRd, hCd, hrest]
      simp only [h0d, hFd]
  · have hk1 : 1 ≤ k := by omega
    have hgl : restored.getLast?.map TsEntry.sequence =
        some (media_sequence + k - 1) := by
      rw [← List.getLast?_map, hrs']
      have hkeq : k = (k - 1) + 1 := by omega
      rw [hkeq, getLast?_range']
      simp only [Option.some.injEq]
      omega
    cases hgle : restored.getLast? with
    | none =>
      rw [hgle] at hgl
      simp at hgl
    | some lastE =>
      have hseq : lastE.sequence = media_sequence + k - 1 := by
        rw [hgle] at hgl
        simpa using hgl
      have hrest : restore stF restored =
          { stF with
            ts_entries := stF.ts_entries ++ restored
            ts_length := (restored.length : ℚ)
            cache_size := (restored.map TsEntry.size).sum
            last_sequence := lastE.sequence } := by
        simp only [restore, hgle]
      have hsplit : segs = segs.take k ++ segs.drop k := (List.take_append_drop k segs).symm
      have hrun2 : update_entries_segments resolve dl
          { restore stF restored with
            cache_size := (restore stF restored).cache_size + header_size }
          media_sequence segs =
          update_entries_segments resolve dl
            { restore stF restored with
              cache_size := (restore stF restored).cache_size + header_size }
            (media_sequence + k) (segs.drop k) := by
        conv_lhs => rw [hsplit]
        rw [segments_skip resolve dl (segs.take k) (segs.drop k) _ media_sequence
          (by rw [htake]; simp only [hrest]; rw [hseq]; omega)]
        rw [htake]
      obtain ⟨stR, hR, hRe, hRd, hRc, hRl⟩ :=
        segments_total resolve dl (segs.drop k)
          { restore stF restored with
            cache_size := (restore stF restored).cache_size + header_size }
          (media_sequence + k)
          (by simp only [hrest]; rw [hseq]; omega)
          (fun s hs => hres s (List.drop_subset k segs hs))
      refine ⟨stC, stR, hC, by rw [hrun2]; exact hR, ?_, ?_, ?_⟩
      · rw [hRe, hCe]
        simp only [hrest, hFe, List.nil_append, h0e]
        rw [List.map_append, cycle_appended_sequences, cycle_appended_sequences,
          List.length_drop, hrs']
        rw [range'_append_own]
        congr 1
        omega
      swap
      · intro hdur
        have hsumall : (segs.map MediaSeg.duration).sum = (segs.length : ℚ) :=
          durations_sum_of_unit segs hdur
        have hsumdrop : ((segs.drop k).map MediaSeg.duration).sum =
            ((segs.length - k : Nat) : ℚ) := by
          rw [durations_sum_of_unit (segs.drop k)
            (fun s hs => hdur s (List.drop_subset k segs hs))]
          rw [List.length_drop]
        rw [hRd, hCd]
        simp only [hrest, hFd, h0d]
        rw [hsumall, hsumdrop, hlenr]
        push_cast [Nat.cast_sub hk]
        ring
      · rw [hRc, hCc]
        simp only [hrest, hFc, h0c]
        have hca : cycle_appended resolve media_sequence segs =
            cycle_appended resolve media_sequence (segs.take k) ++
              cycle_appended resolve (media_sequence + k) (segs.drop k) := by
          conv_lhs => rw [hsplit]
          rw [cycle_appended_append, htake]
        rw [hca, dl_total_append, hsz]
        omega

/-- C6 counterexample: with two segments of declared duration 2,
continuous ingestion ends with duration counter 4, while ingesting the
first, restarting (restore weighs the restored segment as one unit) and
ingesting the second ends with duration counter 3: the two runs do not
yield identical cumulative duration counters. -/
theorem C6_restore_counterexample :
    (update_entries_segments resolveW dlW stFresh 1
        [⟨"1.m4s", 2⟩, ⟨"2.m4s", 2⟩]).map RecorderState.ts_length = Except.ok 4 ∧
    (update_entries_segments resolveW dlW
        { restore { stFresh with cache_size := 0, header := none }
            [⟨"1.m4s", 1, 1, 10⟩] with
          cache_size := (restore { stFresh with cache_size := 0, header := none }
              [⟨"1.m4s", 1, 1, 10⟩]).cache_size + 5,
          header := stFresh.header } 2
        [⟨"2.m4s", 2⟩]).map RecorderState.ts_length = Except.ok 3 ∧
    (4 : ℚ) ≠ 3 := by
  refine ⟨?_, ?_, by norm_num⟩ <;>
    · simp [update_entries_segments, restore, resolveW, dlW, stFresh, Except.map]
      norm_num

/-- Witness for C6 on a concrete two-segment session of unit durations
split after its first segment; the unit-duration proviso of the
conditional duration conclusion is discharged concretely. -/
theorem C6_restore_amended_witness :
    ∃ stC stR,
      update_entries_segments resolveW dlW stFresh 1
          [⟨"1.m4s", 1⟩, ⟨"2.m4s", 1⟩] = Except.ok stC ∧
      update_entries_segments resolveW dlW
        { restore { stFresh with cache_size := 0, header := none }
            [⟨"1.m4s", 1, 1, 10⟩] with
          cache_size := (restore { stFresh with cache_size := 0, header := none }
              [⟨"1.m4s", 1, 1, 10⟩]).cache_size + 5 }
        1 [⟨"1.m4s", 1⟩, ⟨"2.m4s", 1⟩] = Except.ok stR ∧
      stR.ts_entries.map TsEntry.sequence = stC.ts_entries.map TsEntry.sequence ∧
      stR.cache_size = stC.cache_size ∧
      stR.ts_length = stC.ts_length := by
  obtain ⟨stC, stR, h1, h2, h3, h4, h5⟩ :=
    C6_restore_amended resolveW dlW [⟨"1.m4s", 1⟩, ⟨"2.m4s", 1⟩] 1 1 5 stFresh
      { stFresh with cache_size := 0, header := none } [⟨"1.m4s", 1, 1, 10⟩]
      (by decide) (by decide)
      (by intro s hs
          fin_cases hs
          · exact ⟨_, rfl, by decide⟩
          · exact ⟨_, rfl, by decide⟩)
      rfl rfl rfl rfl rfl rfl rfl rfl
      (by decide) (by decide)
  exact ⟨stC, stR, h1, h2, h3, h4, h5 (by
    intro s hs
    fin_cases hs
    · rfl
    · rfl)⟩

end BiliShadowReplay
